import Mathlib

/-!
Verification development for the Mimiverse IDE Rust core engine
(src-tauri/src: cascade.rs, file_indexer.rs, main.rs).

Shallow embedding conventions:
- Rust `String`/`&str` become Lean `String`; substring search and slicing
  are modelled at character level (all patterns searched for are ASCII, so
  byte indices and char indices coincide at every match boundary).
- `HashMap<String, HashSet<String>>` becomes a total function
  `String → Finset String` with default `∅`, matching the public accessors
  `get(..).cloned().unwrap_or_default()`.
- Filesystem effects (`Path::exists`, reading a file) are parameters:
  an `fexists : String → Bool` oracle, and per-file analysis outcomes are
  `Option`-valued functions (`none` = the file could not be read).
- Rust `f64` scores in `FileIndex::search` only ever hold the integers
  0, 5, 10, 25, 50, 100 and small sums thereof, all exactly representable,
  so scores are modelled as `Nat`.
-/

namespace Mimiverse

/-! ### Character-level string helpers -/

/-- First character index at which `pat` occurs as a substring of `s`
(model of Rust `str::find` for ASCII patterns). -/
def strFind (s pat : String) : Option Nat :=
  (List.range (s.length + 1)).find? fun i => pat.toList.isPrefixOf (s.toList.drop i)

/-- Model of Rust `str::contains` for substrings. -/
def strContains (s pat : String) : Bool :=
  (strFind s pat).isSome

/-- Drop the first `n` characters of `s` (model of Rust byte slicing `s[n..]`
at an ASCII-aligned index). -/
def strDrop (s : String) (n : Nat) : String :=
  String.mk (s.toList.drop n)

/-- Model of Rust `str::trim_matches` with a character-set predicate:
strip matching characters from both ends. -/
def trimMatches (s : String) (p : Char → Bool) : String :=
  String.mk (((s.toList.dropWhile p).reverse.dropWhile p).reverse)

/-- Model of Rust `str::trim` (structural, so that the kernel can
evaluate it; Rust trims Unicode whitespace, modelled by `Char.isWhitespace`). -/
def strTrim (s : String) : String :=
  String.mk (((s.toList.dropWhile Char.isWhitespace).reverse.dropWhile
    Char.isWhitespace).reverse)

/-- Model of Rust `str::starts_with` (structural). -/
def strStartsWith (s pre : String) : Bool :=
  pre.toList.isPrefixOf s.toList

/-- Model of Rust `str::to_lowercase` (structural; ASCII case mapping). -/
def strToLower (s : String) : String :=
  String.mk (s.toList.map Char.toLower)

/-- Model of Rust `str::split_whitespace`: whitespace-separated words,
empty fragments discarded. -/
def splitWhitespace (s : String) : List String :=
  ((s.toList.splitOnP Char.isWhitespace).filter
    (fun w => !w.isEmpty)).map String.mk

/-- Model of Rust `str::lines`: split on the newline character. (Rust also
strips a trailing `\r`; none of the analyzed patterns involve `\r`.) -/
def strLines (s : String) : List String :=
  (s.toList.splitOnP (fun c => c = '\n')).map String.mk

/-! ### cascade.rs: symbol data model -/

/-- Model of `SymbolKind` from cascade.rs. -/
inductive SymbolKind where
  | Function
  | Class
  | Interface
  | Variable
  | Constant
  | Type
  | Module
  deriving DecidableEq, Repr

/-- Model of `SymbolInfo` from cascade.rs. -/
structure SymbolInfo where
  name : String
  kind : SymbolKind
  file : String
  line : Nat
  exported : Bool
  deriving DecidableEq, Repr

/-! ### cascade.rs: CodeGraph::extract_export_name -/

/-- The fixed keyword list scanned by `extract_export_name`, in source order. -/
def exportKeywords : List String :=
  ["function", "class", "const", "let", "var", "interface", "type"]

/-- Model of `CodeGraph::extract_export_name`: for each keyword in order, find its
first occurrence in the line; the candidate name is the run of
alphanumeric/underscore characters after trimming whitespace past the
keyword; the first keyword yielding a non-empty name wins. -/
def extract_export_name (line : String) : Option String :=
  exportKeywords.findSome? fun kw =>
    match strFind line kw with
    | some idx =>
      let rest := strTrim (strDrop line (idx + kw.length))
      let name := rest.toList.takeWhile fun c => c.isAlphanum || c == '_'
      if name.isEmpty then none else some (String.mk name)
    | none => none

/-- The export branch of `CodeGraph::analyze_file` for one (already trimmed)
line: guarded by `starts_with("export")` and by the line containing
"function", "const" or "class"; kind classified by contains-checks. -/
def lineExportSymbols (file_path line : String) : List SymbolInfo :=
  if strStartsWith line "export" then
    if strContains line "function" || strContains line "const" || strContains line "class" then
      match extract_export_name line with
      | some name =>
        let kind := if strContains line "function" then SymbolKind.Function
                    else if strContains line "class" then SymbolKind.Class
                    else SymbolKind.Variable
        [⟨name, kind, file_path, 0, true⟩]
      | none => []
    else []
  else []

/-! ### cascade.rs: CodeGraph::resolve_import

The filesystem is a parameter `fexists`; the importing file's parent
directory is a parameter `parent : Option String` (model of
`from_file.parent()`), and `Path::join` of a parent directory with a
relative specifier is string concatenation with a separator. -/

/-- The probe suffix list from `resolve_import`, in source order. -/
def probeSuffixes : List String :=
  ["", ".ts", ".tsx", ".js", ".jsx", "/index.ts", "/index.js"]

/-- Model of `CodeGraph::resolve_import`. -/
def resolve_import (fexists : String → Bool) (parent : Option String)
    (imp : String) : String :=
  if strStartsWith imp "." then
    match parent with
    | some p =>
      let resolved := p ++ "/" ++ imp
      match probeSuffixes.find? (fun ext => fexists (resolved ++ ext)) with
      | some ext => resolved ++ ext
      | none => resolved
    | none => imp
  else imp

/-! ### cascade.rs: CodeGraph::analyze_file -/

/-- The import branch of `analyze_file` for one trimmed line:
`import ... from '<module>'`. -/
def lineImportDep (fexists : String → Bool) (parent : Option String)
    (line : String) : Option String :=
  if strStartsWith line "import" then
    match strFind line "from" with
    | some from_idx =>
      let module := trimMatches (strTrim (strDrop line (from_idx + 4)))
        (fun c => c == '\'' || c == '"' || c == ';')
      some (resolve_import fexists parent module)
    | none => none
  else none

/-- The require branch of `analyze_file` for one trimmed line:
`require('<module>')`. -/
def lineRequireDep (fexists : String → Bool) (parent : Option String)
    (line : String) : Option String :=
  if strContains line "require(" then
    match strFind line "require(" with
    | some start =>
      let rest := strDrop line (start + 8)
      match strFind rest ")" with
      | some e =>
        let module := trimMatches (String.mk (rest.toList.take e))
          (fun c => c == '\'' || c == '"')
        some (resolve_import fexists parent module)
      | none => none
    | none => none
  else none

/-- Dependencies and symbols contributed by one raw line of `analyze_file`
(the Rust loop body: trim, then the import, require and export branches). -/
def analyzeLine (fexists : String → Bool) (parent : Option String)
    (file_path rawLine : String) : Finset String × List SymbolInfo :=
  let line := strTrim rawLine
  let deps : Finset String :=
    (match lineImportDep fexists parent line with
     | some d => {d}
     | none => ∅) ∪
    (match lineRequireDep fexists parent line with
     | some d => {d}
     | none => ∅)
  (deps, lineExportSymbols file_path line)

/-- Model of `CodeGraph::analyze_file` on decoded content: fold the per-line
contributions into a dependency set and a symbol list. -/
def analyze_file (fexists : String → Bool) (parent : Option String)
    (file_path content : String) : String × Finset String × List SymbolInfo :=
  let step := fun (acc : Finset String × List SymbolInfo) (l : String) =>
    let r := analyzeLine fexists parent file_path l
    (acc.1 ∪ r.1, acc.2 ++ r.2)
  let res := (strLines content).foldl step (∅, [])
  (file_path, res.1, res.2)

/-! ### cascade.rs: CodeGraph state and the merge pass -/

/-- The `CodeGraph` maps, as total functions with default `∅`/`[]`
(matching `get(..).unwrap_or_default()` in the accessors). -/
structure GraphState where
  dependencies : String → Finset String
  dependents : String → Finset String
  symbols : String → List SymbolInfo

/-- The empty graph (`CodeGraph::new`). -/
def GraphState.empty : GraphState :=
  ⟨fun _ => ∅, fun _ => ∅, fun _ => []⟩

/-- Pointwise function update (model of `HashMap::insert`, replacing any
prior entry for the key). -/
def updFun {α : Type} (f : String → α) (k : String) (v : α) : String → α :=
  fun x => if x = k then v else f x

/-- One iteration of the merge loop in `analyze_workspace`: insert the
forward edge set (replacing), accumulate reverse edges, append symbols. -/
def mergeFile (st : GraphState) (r : String × Finset String × List SymbolInfo) :
    GraphState where
  dependencies := updFun st.dependencies r.1 r.2.1
  dependents := fun g => if g ∈ r.2.1 then insert r.1 (st.dependents g) else st.dependents g
  symbols := r.2.2.foldl (fun m s => updFun m s.name (m s.name ++ [s])) st.symbols

/-- The sequential reduce phase of `analyze_workspace` over the collected
per-file results. -/
def mergePass (st : GraphState) (results : List (String × Finset String × List SymbolInfo)) :
    GraphState :=
  results.foldl mergeFile st

/-- Model of `CodeGraph::analyze_workspace`, with the parallel per-file analysis
modelled as an `Option`-valued outcome per file (`none` = `analyze_file`
returned `Err`, filtered out by `.ok()` before the merge). -/
def analyze_workspace
    (analyzeF : String → Option (String × Finset String × List SymbolInfo))
    (st : GraphState) (files : List String) : GraphState :=
  mergePass st (files.filterMap analyzeF)

/-- Model of `CodeGraph::get_dependencies` (set view). -/
def GraphState.get_dependencies (st : GraphState) (file_path : String) : Finset String :=
  st.dependencies file_path

/-- Model of `CodeGraph::get_dependents` (set view). -/
def GraphState.get_dependents (st : GraphState) (file_path : String) : Finset String :=
  st.dependents file_path

/-! ### cascade.rs: CodeGraph::get_impact_scope

The Rust loop `while !to_process.is_empty() && depth < max_depth` is
embedded with `max_depth - depth` as structural fuel. `HashSet` iteration
order is modelled by `Finset.sort`; all proved properties are at the
set level and independent of that order. -/

/-- The inner `for file in to_process` loop of `get_impact_scope`: insert
each frontier node into `affected`; for a newly inserted node, extend the
next frontier with its dependents. -/
def processFrontier (dept : String → Finset String) :
    List String → Finset String → Finset String × List String
  | [], affected => (affected, [])
  | f :: fs, affected =>
    if f ∈ affected then processFrontier dept fs affected
    else
      let p := processFrontier dept fs (insert f affected)
      (p.1, (dept f).sort (fun a b => a ≤ b) ++ p.2)

/-- The outer `while` loop of `get_impact_scope`, fuelled by the remaining
depth budget. -/
def impactLoop (dept : String → Finset String) :
    Nat → List String → Finset String → Finset String
  | 0, _, affected => affected
  | fuel + 1, to_process, affected =>
    if to_process.isEmpty then affected
    else
      let p := processFrontier dept to_process affected
      impactLoop dept fuel p.2 p.1

/-- Model of `CodeGraph::get_impact_scope`. -/
def get_impact_scope (dept : String → Finset String)
    (file_path : String) (max_depth : Nat) : Finset String :=
  impactLoop dept max_depth [file_path] ∅

/-- Instrumented `processFrontier` that also records, in order, the nodes
newly inserted into `affected` (the nodes whose dependents get expanded). -/
def processFrontierV (dept : String → Finset String) :
    List String → Finset String → Finset String × List String × List String
  | [], affected => (affected, [], [])
  | f :: fs, affected =>
    if f ∈ affected then processFrontierV dept fs affected
    else
      let p := processFrontierV dept fs (insert f affected)
      (p.1, (dept f).sort (fun a b => a ≤ b) ++ p.2.1, f :: p.2.2)

/-- Instrumented `impactLoop` accumulating the visit record. -/
def impactLoopV (dept : String → Finset String) :
    Nat → List String → Finset String → Finset String × List String
  | 0, _, affected => (affected, [])
  | fuel + 1, to_process, affected =>
    if to_process.isEmpty then (affected, [])
    else
      let p := processFrontierV dept to_process affected
      let r := impactLoopV dept fuel p.2.1 p.1
      (r.1, p.2.2 ++ r.2)

/-- The sequence of nodes expanded by `get_impact_scope`, in visit order. -/
def impactVisits (dept : String → Finset String)
    (file_path : String) (max_depth : Nat) : List String :=
  (impactLoopV dept max_depth [file_path] ∅).2

/-! ### file_indexer.rs: FileIndex and search -/

/-- Model of `FileInfo` from file_indexer.rs. -/
structure FileInfo where
  path : String
  name : String
  extension : String
  size : Nat
  lines : Nat
  hash : String
  language : String
  deriving DecidableEq, Repr

/-- Model of `FileMatch` from main.rs (score held as the exact small integer the
Rust float carries). -/
structure FileMatch where
  path : String
  name : String
  line : Option Nat
  snippet : Option String
  score : Nat
  deriving DecidableEq, Repr

/-- The per-file score computation inside `FileIndex::search`:
mutually exclusive tiers, then the word-accumulation fallback. -/
def scoreFile (query_lower : String) (query_words : List String)
    (info : FileInfo) : Nat :=
  let name_lower := strToLower info.name
  let path_lower := strToLower info.path
  if name_lower == query_lower then 100
  else if strContains name_lower query_lower then 50
  else if strContains path_lower query_lower then 25
  else query_words.foldl
    (fun acc w =>
      acc + (if strContains name_lower w then 10 else 0)
          + (if strContains path_lower w then 5 else 0)) 0

/-- Model of `FileIndex::search` over the stored `FileInfo` values (the `HashMap`
value iteration is modelled by a list in some order). -/
def search (files : List FileInfo) (query : String) : List FileMatch :=
  let query_lower := strToLower query
  let query_words := splitWhitespace query_lower
  let results := files.filterMap fun info =>
    let score := scoreFile query_lower query_words info
    if score > 0 then
      some ⟨info.path, info.name, none, none, score⟩
    else
      none
  (results.insertionSort (fun a b => b.score ≥ a.score)).take 50

/-! ### main.rs: open_workspace -/

/-- The `FileIndex` fields relevant to the command layer. -/
structure FileIndexState where
  files : List FileInfo
  total_lines : Nat
  deriving Repr

/-- Model of `FileIndex::new`. -/
def FileIndexState.empty : FileIndexState := ⟨[], 0⟩

/-- Model of `WorkspaceInfo` from main.rs. -/
structure WorkspaceInfo where
  path : String
  file_count : Nat
  indexed : Bool
  deriving DecidableEq, Repr

/-- The distinct error sources of `open_workspace`: the explicit
"Invalid workspace path" rejection, and the stringified errors propagated
from `index_directory` and `analyze_workspace`. -/
inductive MainError where
  | invalidPath
  | indexError (msg : String)
  | graphError (msg : String)
  deriving DecidableEq, Repr

/-- The mutable command state from main.rs (`AppState`). -/
structure AppState where
  workspace_path : Option String
  file_index : FileIndexState
  code_graph : GraphState

/-- Model of `open_workspace` from main.rs: reject a root that does not exist or is
not a directory before touching any state; otherwise record the workspace
path, index, and build the graph. Filesystem checks and the two indexing
passes are parameters. -/
def open_workspace (pexists isDir : String → Bool)
    (index_directory : FileIndexState → String → Except String FileIndexState)
    (analyzeWs : GraphState → String → Except String GraphState)
    (st : AppState) (path : String) : AppState × Except MainError WorkspaceInfo :=
  if !(pexists path) || !(isDir path) then
    (st, Except.error MainError.invalidPath)
  else
    let st1 := { st with workspace_path := some path }
    match index_directory st1.file_index path with
    | Except.error e => (st1, Except.error (MainError.indexError e))
    | Except.ok fi =>
      let st2 := { st1 with file_index := fi }
      match analyzeWs st2.code_graph path with
      | Except.error e => (st2, Except.error (MainError.graphError e))
      | Except.ok g =>
        let st3 := { st2 with code_graph := g }
        (st3, Except.ok ⟨path, fi.files.length, true⟩)

/-! ### Supporting lemmas: symbol extraction -/

/-- Every symbol a single line contributes is exported with placeholder line 0. -/
lemma lineExportSymbols_exported_line {fp line : String} {s : SymbolInfo}
    (h : s ∈ lineExportSymbols fp line) : s.exported = true ∧ s.line = 0 := by
  unfold lineExportSymbols at h
  split at h
  · split at h
    · split at h
      · simp at h
        subst h
        exact ⟨rfl, rfl⟩
      · simp at h
    · simp at h
  · simp at h

/-- Every symbol accumulated by the `analyze_file` fold is exported with
placeholder line 0, provided the accumulator already satisfies this. -/
lemma analyzeFold_exported_line (fexists : String → Bool) (parent : Option String)
    (fp : String) :
    ∀ (ls : List String) (acc : Finset String × List SymbolInfo),
      (∀ s ∈ acc.2, s.exported = true ∧ s.line = 0) →
      ∀ s ∈ (ls.foldl
          (fun acc l =>
            let r := analyzeLine fexists parent fp l
            (acc.1 ∪ r.1, acc.2 ++ r.2)) acc).2,
        s.exported = true ∧ s.line = 0 := by
  intro ls
  induction ls with
  | nil => intro acc hacc s hs; exact hacc s hs
  | cons l ls ih =>
    intro acc hacc s hs
    refine ih _ ?_ s hs
    intro t ht
    simp only [List.mem_append] at ht
    rcases ht with ht | ht
    · exact hacc t ht
    · exact lineExportSymbols_exported_line ht

/-- Claim C10: every SymbolRecord produced by per-file extraction has its
exported flag set to true and its declaration line set to the placeholder 0;
no non-exported symbol and no real line number is ever recorded. -/
theorem c10_symbols_exported_placeholder (fexists : String → Bool)
    (parent : Option String) (fp content : String) :
    ∀ s ∈ (analyze_file fexists parent fp content).2.2,
      s.exported = true ∧ s.line = 0 := by
  intro s hs
  unfold analyze_file at hs
  exact analyzeFold_exported_line fexists parent fp (strLines content) (∅, [])
    (by intro t ht; simp at ht) s hs

/-- Witness for C10 at a concrete file: the extracted record for
`export const x = 1` is exported with line 0. -/
theorem c10_witness :
    (⟨"x", SymbolKind.Variable, "f", 0, true⟩ : SymbolInfo) ∈
      (analyze_file (fun _ => false) none "f" "export const x = 1").2.2 ∧
    (⟨"x", SymbolKind.Variable, "f", 0, true⟩ : SymbolInfo).exported = true ∧
    (⟨"x", SymbolKind.Variable, "f", 0, true⟩ : SymbolInfo).line = 0 := by
  have hmem : (⟨"x", SymbolKind.Variable, "f", 0, true⟩ : SymbolInfo) ∈
      (analyze_file (fun _ => false) none "f" "export const x = 1").2.2 := by decide
  exact ⟨hmem,
    c10_symbols_exported_placeholder (fun _ => false) none "f" "export const x = 1" _ hmem⟩

/-- Claim C7, counterexample: `export let x = 1` is an export line on which
the keyword scan finds the name `x` (so the claimed procedure yields a
Variable record), yet `analyze_file` produces no symbol record, because its
guard requires the line to contain "function", "const" or "class". -/
theorem c7_cex :
    strStartsWith "export let x = 1" "export" = true ∧
    extract_export_name "export let x = 1" = some "x" ∧
    lineExportSymbols "f" "export let x = 1" = [] := by
  decide

/-- Claim C7 (amended): a symbol record is produced only when the export
line also contains "function", "const" or "class"; in that case the name is
the one found by `extract_export_name` (keywords in fixed priority order)
and the kind is Function / Class / Variable by contains-checks; any name
found is a non-empty run of alphanumeric/underscore characters; a line on
which no name is found yields no record. -/
theorem c7_export_extraction (fp line : String) :
    (strStartsWith line "export" = false → lineExportSymbols fp line = []) ∧
    ((strContains line "function" || strContains line "const" ||
        strContains line "class") = false → lineExportSymbols fp line = []) ∧
    (extract_export_name line = none → lineExportSymbols fp line = []) ∧
    (∀ n, strStartsWith line "export" = true →
      (strContains line "function" || strContains line "const" ||
        strContains line "class") = true →
      extract_export_name line = some n →
      lineExportSymbols fp line =
        [⟨n, if strContains line "function" then SymbolKind.Function
             else if strContains line "class" then SymbolKind.Class
             else SymbolKind.Variable, fp, 0, true⟩]) ∧
    (∀ n, extract_export_name line = some n →
      n ≠ "" ∧ ∀ c ∈ n.toList, (c.isAlphanum || c == '_') = true) := by
  refine ⟨?_, ?_, ?_, ?_, ?_⟩
  · intro h; simp [lineExportSymbols, h]
  · intro h; simp [lineExportSymbols, h]
  · intro h; simp [lineExportSymbols, h]
  · intro n h1 h2 h3; simp [lineExportSymbols, h1, h2, h3]
  · intro n h
    obtain ⟨kw, _, hkw⟩ := List.exists_of_findSome?_eq_some h
    revert hkw
    cases hidx : strFind line kw with
    | none => intro hkw; simp at hkw
    | some idx =>
      intro hkw
      simp only at hkw
      split at hkw
      · simp at hkw
      · rename_i hne
        have hn : n = String.mk ((strTrim (strDrop line (idx + kw.length))).toList.takeWhile
            fun c => c.isAlphanum || c == '_') := by
          exact (Option.some.injEq _ _ ▸ hkw).symm
        constructor
        · intro h0
          apply hne
          have : n.toList = [] := by rw [h0]; rfl
          rw [hn] at this
          simpa [List.isEmpty_iff] using this
        · intro c hc
          rw [hn] at hc
          have hc' : c ∈ (strTrim (strDrop line (idx + kw.length))).toList.takeWhile
              (fun c => c.isAlphanum || c == '_') := hc
          exact List.mem_takeWhile_imp (p := fun c => c.isAlphanum || c == '_') hc'

/-- Witness for C7 (amended) at a concrete line: `export const x = 1`
produces exactly the Variable record named `x`. -/
theorem c7_witness :
    lineExportSymbols "f" "export const x = 1" =
      [⟨"x", SymbolKind.Variable, "f", 0, true⟩] := by
  have := (c7_export_extraction "f" "export const x = 1").2.2.2.1 "x"
    (by decide) (by decide) (by decide)
  simpa using this

/-! ### Supporting lemmas: import resolution -/

/-- Probing a suffix list and returning the first hit equals `find?` over
the fully joined candidate list with default the bare joined path. -/
lemma find_probe_getD (fx : String → Bool) (j : String) :
    ∀ l : List String,
      (match l.find? (fun ext => fx (j ++ ext)) with
       | some ext => j ++ ext
       | none => j) = ((l.map (fun ext => j ++ ext)).find? fx).getD j := by
  intro l
  induction l with
  | nil => rfl
  | cons e l ih =>
    simp only [List.map_cons, List.find?_cons]
    cases h : fx (j ++ e) <;> simp [h, ih]

/-- Claim C6: a specifier starting with "." is joined to the importing
file's parent directory and probed in fixed priority order (literal path,
then extensions .ts/.tsx/.js/.jsx, then /index.ts and /index.js), taking
the first existing candidate and falling back to the unresolved joined
path; a non-relative specifier is returned unchanged. -/
theorem c6_resolve_import (fexists : String → Bool) (p imp : String) :
    (∀ parent, strStartsWith imp "." = false →
      resolve_import fexists parent imp = imp) ∧
    (strStartsWith imp "." = true →
      resolve_import fexists (some p) imp =
        (([p ++ "/" ++ imp,
           p ++ "/" ++ imp ++ ".ts",
           p ++ "/" ++ imp ++ ".tsx",
           p ++ "/" ++ imp ++ ".js",
           p ++ "/" ++ imp ++ ".jsx",
           p ++ "/" ++ imp ++ "/index.ts",
           p ++ "/" ++ imp ++ "/index.js"].find? fexists).getD
          (p ++ "/" ++ imp))) := by
  constructor
  · intro parent h
    simp [resolve_import, h]
  · intro h
    have hmap := find_probe_getD fexists (p ++ "/" ++ imp) probeSuffixes
    simp only [probeSuffixes, List.map_cons, List.map_nil,
      String.append_empty] at hmap
    simpa [resolve_import, h] using hmap

/-- Witness for C6: a relative specifier resolved through the probe order
(the `.ts` candidate exists) and an untouched package specifier. -/
theorem c6_witness :
    resolve_import (fun s => s == "/w/./b.ts") (some "/w") "./b" = "/w/./b.ts" ∧
    resolve_import (fun s => s == "/w/./b.ts") (some "/w") "react" = "react" := by
  constructor
  · exact ((c6_resolve_import (fun s => s == "/w/./b.ts") "/w" "./b").2
      (by decide)).trans (by decide)
  · exact (c6_resolve_import (fun s => s == "/w/./b.ts") "/w" "react").1
      (some "/w") (by decide)

/-- Claim C9: a file whose per-file analysis fails (`Err`, filtered by
`.ok()`) contributes nothing to the merged graph and does not disturb the
processing of the other files of the same pass. -/
theorem c9_unreadable_file_dropped
    (analyzeF : String → Option (String × Finset String × List SymbolInfo))
    (st : GraphState) (pre post : List String) (bad : String)
    (h : analyzeF bad = none) :
    analyze_workspace analyzeF st (pre ++ bad :: post) =
      analyze_workspace analyzeF st (pre ++ post) := by
  simp [analyze_workspace, List.filterMap_append, List.filterMap_cons, h]

/-- A concrete analysis outcome map with one unreadable file. -/
def c9AnalyzeF : String → Option (String × Finset String × List SymbolInfo) :=
  fun f => if f = "bad" then none else some (f, ∅, [])

/-- Witness for C9: dropping the unreadable file `bad` leaves the pass over
the two readable neighbours unchanged. -/
theorem c9_witness :
    analyze_workspace c9AnalyzeF GraphState.empty ["a", "bad", "b"] =
      analyze_workspace c9AnalyzeF GraphState.empty ["a", "b"] :=
  c9_unreadable_file_dropped c9AnalyzeF GraphState.empty ["a"] ["b"] "bad" rfl

/-! ### Supporting lemmas: the transpose invariant of the merge pass -/

/-- Merging results whose file keys are distinct and fresh (no reverse edge
already points at any of them) preserves the forward/reverse transpose. -/
lemma mergePass_transpose_aux :
    ∀ (results : List (String × Finset String × List SymbolInfo)) (st : GraphState),
      (∀ f g, f ∈ st.dependents g ↔ g ∈ st.dependencies f) →
      (∀ r ∈ results, ∀ g, r.1 ∉ st.dependents g) →
      (results.map (fun r => r.1)).Nodup →
      ∀ f g, f ∈ (mergePass st results).dependents g ↔
             g ∈ (mergePass st results).dependencies f := by
  intro results
  induction results with
  | nil => intro st hT _ _; exact hT
  | cons r rs ih =>
    intro st hT hF hN
    simp only [List.map_cons, List.nodup_cons] at hN
    have step : ∀ f g, f ∈ (mergeFile st r).dependents g ↔
        g ∈ (mergeFile st r).dependencies f := by
      intro f g
      simp only [mergeFile, updFun]
      by_cases hf : f = r.1
      · subst hf
        by_cases hg : g ∈ r.2.1
        · simp [hg]
        · simp only [if_pos rfl, if_neg hg]
          constructor
          · intro hmem; exact absurd hmem (hF r (List.mem_cons_self r rs) g)
          · intro hmem; exact absurd hmem hg
      · by_cases hg : g ∈ r.2.1
        · simp only [if_pos hg, if_neg hf, Finset.mem_insert]
          rw [hT f g]
          constructor
          · rintro (h | h)
            · exact absurd h hf
            · exact h
          · exact Or.inr
        · simp only [if_neg hg, if_neg hf]
          exact hT f g
    have fresh : ∀ r' ∈ rs, ∀ g, r'.1 ∉ (mergeFile st r).dependents g := by
      intro r' hr' g hmem
      have hne : r'.1 ≠ r.1 := by
        intro he
        exact hN.1 (he ▸ List.mem_map_of_mem (fun x => x.1) hr')
      simp only [mergeFile] at hmem
      by_cases hg : g ∈ r.2.1
      · rw [if_pos hg, Finset.mem_insert] at hmem
        rcases hmem with h | h
        · exact hne h
        · exact hF r' (List.mem_cons_of_mem r hr') g h
      · rw [if_neg hg] at hmem
        exact hF r' (List.mem_cons_of_mem r hr') g hmem
    simpa [mergePass] using ih (mergeFile st r) step fresh hN.2

/-- Claim C1, counterexample: two successive merge passes on the same graph
(the file's imports changed from `{a}` to `∅` between them) leave the stale
reverse edge `f ∈ dependents_of(a)` with no matching forward edge, so the
reverse map is no longer the transpose of the forward map. -/
theorem c1_cex :
    "f" ∈ (mergePass (mergePass GraphState.empty [("f", {"a"}, [])])
          [("f", ∅, [])]).get_dependents "a" ∧
    "a" ∉ (mergePass (mergePass GraphState.empty [("f", {"a"}, [])])
          [("f", ∅, [])]).get_dependencies "f" := by
  decide

/-- Claim C1 (amended): after a single workspace-analysis merge pass
starting from the empty graph, with each analyzed file appearing at most
once among the results, `dependents_of(f)` is exactly
the set of g with f in `dependencies_of(g)`; a further pass whose results
differ can break the invariant, so reverse adjacency must be rebuilt from
scratch on a full re-index. -/
theorem c1_transpose_single_pass
    (results : List (String × Finset String × List SymbolInfo))
    (hN : (results.map (fun r => r.1)).Nodup) :
    ∀ f g, f ∈ (mergePass GraphState.empty results).get_dependents g ↔
           g ∈ (mergePass GraphState.empty results).get_dependencies f := by
  intro f g
  exact mergePass_transpose_aux results GraphState.empty
    (by intro f g; simp [GraphState.empty])
    (by intro r _ g; simp [GraphState.empty])
    hN f g

/-- Witness for C1 (amended) on a one-file pass: the edge `a → b` is
reflected both ways. -/
theorem c1_witness :
    ("a" ∈ (mergePass GraphState.empty [("a", {"b"}, [])]).get_dependents "b" ↔
      "b" ∈ (mergePass GraphState.empty [("a", {"b"}, [])]).get_dependencies "a") :=
  c1_transpose_single_pass [("a", {"b"}, [])] (by decide) "a" "b"

/-! ### Supporting lemmas: impact-scope traversal -/

/-- The affected set only grows across one frontier pass. -/
lemma subset_processFrontier (dept : String → Finset String) :
    ∀ (F : List String) (A : Finset String), A ⊆ (processFrontier dept F A).1 := by
  intro F
  induction F with
  | nil => intro A x hx; exact hx
  | cons f fs ih =>
    intro A
    by_cases h : f ∈ A
    · simpa [processFrontier, h] using ih A
    · simp only [processFrontier, if_neg h]
      exact (Finset.subset_insert f A).trans (ih (insert f A))

/-- The affected set only grows across the whole loop. -/
lemma subset_impactLoop (dept : String → Finset String) :
    ∀ (fuel : Nat) (F : List String) (A : Finset String),
      A ⊆ impactLoop dept fuel F A := by
  intro fuel
  induction fuel with
  | zero => intro F A x hx; exact hx
  | succ n ih =>
    intro F A
    simp only [impactLoop]
    cases hF : F.isEmpty
    · simp only [Bool.false_eq_true, if_false]
      exact (subset_processFrontier dept F A).trans (ih _ _)
    · simp

/-- With one more unit of fuel the loop computes a superset: both runs take
the same first step, so the claim follows by induction. -/
lemma impactLoop_mono (dept : String → Finset String) :
    ∀ (fuel : Nat) (F : List String) (A : Finset String),
      impactLoop dept fuel F A ⊆ impactLoop dept (fuel + 1) F A := by
  intro fuel
  induction fuel with
  | zero =>
    intro F A
    simp only [impactLoop]
    cases hF : F.isEmpty
    · simp only [Bool.false_eq_true, if_false]
      exact subset_processFrontier dept F A
    · simp
  | succ n ih =>
    intro F A
    simp only [impactLoop]
    cases hF : F.isEmpty
    · simp only [Bool.false_eq_true, if_false]
      exact ih _ _
    · simp

/-- The instrumented frontier pass: its visit record is duplicate-free and
fresh relative to the incoming affected set, and the outgoing affected set
is exactly the incoming one extended by the visits. -/
lemma processFrontierV_spec (dept : String → Finset String) :
    ∀ (F : List String) (A : Finset String),
      (processFrontierV dept F A).2.2.Nodup ∧
      (∀ v ∈ (processFrontierV dept F A).2.2, v ∉ A) ∧
      (∀ x, x ∈ (processFrontierV dept F A).1 ↔
        x ∈ A ∨ x ∈ (processFrontierV dept F A).2.2) := by
  intro F
  induction F with
  | nil =>
    intro A
    refine ⟨List.nodup_nil, ?_, ?_⟩
    · intro v hv; simp [processFrontierV] at hv
    · intro x; simp [processFrontierV]
  | cons f fs ih =>
    intro A
    by_cases h : f ∈ A
    · simpa only [processFrontierV, if_pos h] using ih A
    · obtain ⟨ih1, ih2, ih3⟩ := ih (insert f A)
      simp only [processFrontierV, if_neg h]
      refine ⟨?_, ?_, ?_⟩
      · refine List.nodup_cons.mpr ⟨?_, ih1⟩
        intro hf
        exact (ih2 f hf) (Finset.mem_insert_self f A)
      · intro v hv
        rcases List.mem_cons.mp hv with rfl | hv
        · exact h
        · intro hvA
          exact (ih2 v hv) (Finset.mem_insert_of_mem hvA)
      · intro x
        rw [ih3 x]
        simp only [Finset.mem_insert, List.mem_cons]
        tauto

/-- The instrumented loop: the full visit record is duplicate-free
(each node is expanded at most once) and fresh relative to the incoming
affected set. -/
lemma impactLoopV_spec (dept : String → Finset String) :
    ∀ (fuel : Nat) (F : List String) (A : Finset String),
      (impactLoopV dept fuel F A).2.Nodup ∧
      (∀ v ∈ (impactLoopV dept fuel F A).2, v ∉ A) := by
  intro fuel
  induction fuel with
  | zero =>
    intro F A
    exact ⟨List.nodup_nil, by intro v hv; simp [impactLoopV] at hv⟩
  | succ n ih =>
    intro F A
    simp only [impactLoopV]
    cases hF : F.isEmpty
    · simp only [Bool.false_eq_true, if_false]
      obtain ⟨p1, p2, p3⟩ := processFrontierV_spec dept F A
      obtain ⟨r1, r2⟩ := ih (processFrontierV dept F A).2.1 (processFrontierV dept F A).1
      refine ⟨List.nodup_append.mpr ⟨p1, r1, ?_⟩, ?_⟩
      · intro v hv hv'
        exact (r2 v hv') ((p3 v).mpr (Or.inr hv))
      · intro v hv
        rcases List.mem_append.mp hv with hv | hv
        · exact p2 v hv
        · intro hvA
          exact (r2 v hv) ((p3 v).mpr (Or.inl hvA))
    · simp

/-- The instrumented frontier pass computes the same affected set and next
frontier as the plain one. -/
lemma processFrontierV_agrees (dept : String → Finset String) :
    ∀ (F : List String) (A : Finset String),
      (processFrontierV dept F A).1 = (processFrontier dept F A).1 ∧
      (processFrontierV dept F A).2.1 = (processFrontier dept F A).2 := by
  intro F
  induction F with
  | nil => intro A; exact ⟨rfl, rfl⟩
  | cons f fs ih =>
    intro A
    by_cases h : f ∈ A
    · simpa only [processFrontierV, processFrontier, if_pos h] using ih A
    · obtain ⟨h1, h2⟩ := ih (insert f A)
      simp only [processFrontierV, processFrontier, if_neg h]
      exact ⟨h1, by rw [h2]⟩

/-- The instrumented loop computes the same affected set as the plain one. -/
lemma impactLoopV_agrees (dept : String → Finset String) :
    ∀ (fuel : Nat) (F : List String) (A : Finset String),
      (impactLoopV dept fuel F A).1 = impactLoop dept fuel F A := by
  intro fuel
  induction fuel with
  | zero => intro F A; rfl
  | succ n ih =>
    intro F A
    simp only [impactLoopV, impactLoop]
    cases hF : F.isEmpty
    · simp only [Bool.false_eq_true, if_false]
      obtain ⟨h1, h2⟩ := processFrontierV_agrees dept F A
      rw [h1, h2, ih]
    · simp

/-- Claim C2, counterexample: with `max_depth = 0` the loop body never runs,
so `get_impact_scope(f, 0)` is the empty set, not `{f}`, and the starting
file is not in the result. -/
theorem c2_cex :
    get_impact_scope (fun _ => ∅) "a" 0 = ∅ ∧
    "a" ∉ get_impact_scope (fun _ => ∅) "a" 0 := by
  decide

/-- Claim C2 (amended): `get_impact_scope(f, 0)` is the empty set (zero
frontier expansions, the start node is never inserted), and for every
`max_depth ≥ 1` the starting file itself is included in the result. -/
theorem c2_impact_depth_zero (dept : String → Finset String) (f : String) :
    get_impact_scope dept f 0 = ∅ ∧
    ∀ d : Nat, 1 ≤ d → f ∈ get_impact_scope dept f d := by
  constructor
  · rfl
  · intro d hd
    obtain ⟨d', rfl⟩ : ∃ d', d = d' + 1 := ⟨d - 1, by omega⟩
    show f ∈ impactLoop dept (d' + 1) [f] ∅
    simp only [impactLoop, List.isEmpty_cons, Bool.false_eq_true, if_false]
    refine subset_impactLoop dept d' _ _ ?_
    simp [processFrontier]

/-- Witness for C2 (amended) at a concrete start node and depth 1. -/
theorem c2_witness :
    get_impact_scope (fun _ => ∅) "b" 0 = ∅ ∧
    "b" ∈ get_impact_scope (fun _ => ∅) "b" 1 :=
  ⟨(c2_impact_depth_zero (fun _ => ∅) "b").1,
   (c2_impact_depth_zero (fun _ => ∅) "b").2 1 (by omega)⟩

/-- Claim C5: the impact scope is monotone in `max_depth`, and the
traversal (instrumented to record which nodes it expands) visits each node
at most once, even on cyclic reverse-dependency relations; the instrumented
traversal computes the same result set. -/
theorem c5_impact_monotone_visits_once (dept : String → Finset String)
    (f : String) (N : Nat) :
    get_impact_scope dept f N ⊆ get_impact_scope dept f (N + 1) ∧
    (impactVisits dept f N).Nodup ∧
    (impactLoopV dept N [f] ∅).1 = get_impact_scope dept f N :=
  ⟨impactLoop_mono dept N [f] ∅,
   (impactLoopV_spec dept N [f] ∅).1,
   impactLoopV_agrees dept N [f] ∅⟩

/-- A two-node reverse-dependency cycle, used to witness cycle safety. -/
def deptCyc : String → Finset String :=
  fun s => if s = "a" then {"b"} else if s = "b" then {"a"} else ∅

/-- Witness for C5 on a cyclic graph at depth 2. -/
theorem c5_witness :
    get_impact_scope deptCyc "a" 2 ⊆ get_impact_scope deptCyc "a" 3 ∧
    (impactVisits deptCyc "a" 2).Nodup ∧
    (impactLoopV deptCyc 2 ["a"] ∅).1 = get_impact_scope deptCyc "a" 2 :=
  c5_impact_monotone_visits_once deptCyc "a" 2

/-! ### Supporting lemmas: fuzzy search -/

/-- The empty pattern occurs at index 0 of every string. -/
lemma strFind_empty (s : String) : strFind s "" = some 0 := by
  unfold strFind
  rw [List.range_succ_eq_map, List.find?_cons]
  have h : ("".toList.isPrefixOf (s.toList.drop 0)) = true := by
    simp [List.isPrefixOf]
  rw [h]

/-- Every string contains the empty substring. -/
lemma strContains_empty (s : String) : strContains s "" = true := by
  rw [strContains, strFind_empty]
  rfl

/-- With the empty query every file scores 100 (empty name) or 50
(name contains the empty substring), hence strictly positively. -/
lemma scoreFile_empty_query_pos (info : FileInfo) :
    0 < scoreFile "" [] info := by
  unfold scoreFile
  cases h : strToLower info.name == ""
  · simp [h, strContains_empty]
  · simp [h]

/-- The result-list length of `search`: the score filter truncated at 50
(sorting preserves length). -/
lemma search_length (files : List FileInfo) (q : String) :
    (search files q).length =
      min 50 ((files.filterMap fun info =>
        if scoreFile (strToLower q) (splitWhitespace (strToLower q)) info > 0 then
          some (⟨info.path, info.name, none, none,
            scoreFile (strToLower q) (splitWhitespace (strToLower q)) info⟩ : FileMatch)
        else none)).length := by
  unfold search
  rw [List.length_take]
  congr 1
  exact (List.perm_insertionSort _ _).length_eq

/-- A sample indexed file, `foo.ts`. -/
def fooInfo : FileInfo := ⟨"/w/foo.ts", "foo.ts", "ts", 1, 1, "h", "TypeScript"⟩

/-- A sample indexed file, `barfoo.ts`. -/
def barfooInfo : FileInfo := ⟨"/w/barfoo.ts", "barfoo.ts", "ts", 1, 1, "h", "TypeScript"⟩

/-- Claim C3, counterexample: on an index holding `foo.ts`, the empty query
returns a non-empty list (the file scores 50, since every name contains the
empty substring), not the empty list. -/
theorem c3_cex :
    search [fooInfo] "" = [⟨"/w/foo.ts", "foo.ts", none, none, 50⟩] ∧
    search [fooInfo] "" ≠ [] := by
  decide

/-- Claim C3 (amended): a query on which every indexed file scores 0
returns the empty list, but the empty-string query matches every file
(score 100 or 50), so it returns the empty list exactly when the index is
empty. -/
theorem c3_search_empty_and_nomatch (files : List FileInfo) (q : String) :
    ((∀ info ∈ files,
        scoreFile (strToLower q) (splitWhitespace (strToLower q)) info = 0) →
      search files q = []) ∧
    (search files "" = [] ↔ files = []) := by
  constructor
  · intro h
    have hnil : (files.filterMap fun info =>
        if scoreFile (strToLower q) (splitWhitespace (strToLower q)) info > 0 then
          some (⟨info.path, info.name, none, none,
            scoreFile (strToLower q) (splitWhitespace (strToLower q)) info⟩ : FileMatch)
        else none) = [] := by
      rw [List.filterMap_eq_nil_iff]
      intro info hinfo
      simp [h info hinfo]
    simp only [search]
    rw [hnil]
    rfl
  · constructor
    · intro h
      cases files with
      | nil => rfl
      | cons i rest =>
        exfalso
        have hpos : 0 < scoreFile (strToLower "") (splitWhitespace (strToLower "")) i :=
          scoreFile_empty_query_pos i
        have hlen : 0 < (search (i :: rest) "").length := by
          rw [search_length]
          simp only [List.filterMap_cons]
          rw [if_pos hpos]
          simp
        rw [h] at hlen
        simp at hlen
    · rintro rfl
      rfl

/-- Witness for C3 (amended): the query `zzz` matches nothing in an index
holding `foo.ts` and returns the empty list, and the empty-query clause
instantiated at that index. -/
theorem c3_witness :
    search [fooInfo] "zzz" = [] ∧
    (search [fooInfo] "" = [] ↔ [fooInfo] = []) :=
  ⟨(c3_search_empty_and_nomatch [fooInfo] "zzz").1 (by decide),
   (c3_search_empty_and_nomatch [fooInfo] "").2⟩

/-- The word-accumulation fold of `scoreFile` counts matched words. -/
lemma score_fold_eq (nl pl : String) :
    ∀ (ws : List String) (acc : Nat),
      ws.foldl (fun acc w =>
        acc + (if strContains nl w then 10 else 0)
            + (if strContains pl w then 5 else 0)) acc =
      acc + 10 * ws.countP (fun w => strContains nl w)
          + 5 * ws.countP (fun w => strContains pl w) := by
  intro ws
  induction ws with
  | nil => intro acc; simp
  | cons w ws ih =>
    intro acc
    rw [List.foldl_cons, ih, List.countP_cons, List.countP_cons]
    cases h1 : strContains nl w <;> cases h2 : strContains pl w <;>
      simp [h1, h2] <;> ring

/-- Claim C4, counterexample: for the query `foo`, the file named `foo.ts`
scores 50 (substring tier: `"foo.ts" ≠ "foo"`, so there is no exact name
match), the same as `barfoo.ts` — not 100 above 50 as claimed. -/
theorem c4_cex :
    scoreFile "foo" ["foo"] fooInfo = 50 ∧
    scoreFile "foo" ["foo"] barfooInfo = 50 ∧
    scoreFile "foo" ["foo"] fooInfo ≠ 100 := by
  decide

/-- Claim C4 (amended): the mutually exclusive scoring tiers are exact name
= 100, name-substring = 50, path-substring = 25, else 10 per query word in
the name plus 5 per query word in the path; zero-scoring files are
excluded from the results. In the example, `foo.ts` and `barfoo.ts` both
fall in the substring tier (score 50) for the query `foo`; an exact match
requires the full file name, e.g. query `foo.ts` scores 100. -/
theorem c4_search_scoring (ql : String) (ws : List String) (info : FileInfo)
    (files : List FileInfo) (q : String) :
    ((strToLower info.name == ql) = true → scoreFile ql ws info = 100) ∧
    ((strToLower info.name == ql) = false →
      strContains (strToLower info.name) ql = true →
      scoreFile ql ws info = 50) ∧
    ((strToLower info.name == ql) = false →
      strContains (strToLower info.name) ql = false →
      strContains (strToLower info.path) ql = true →
      scoreFile ql ws info = 25) ∧
    ((strToLower info.name == ql) = false →
      strContains (strToLower info.name) ql = false →
      strContains (strToLower info.path) ql = false →
      scoreFile ql ws info =
        10 * ws.countP (fun w => strContains (strToLower info.name) w) +
        5 * ws.countP (fun w => strContains (strToLower info.path) w)) ∧
    (∀ m ∈ search files q, 0 < m.score) ∧
    (scoreFile "foo" ["foo"] fooInfo = 50 ∧
     scoreFile "foo" ["foo"] barfooInfo = 50 ∧
     scoreFile "foo.ts" ["foo.ts"] fooInfo = 100) := by
  refine ⟨?_, ?_, ?_, ?_, ?_, by decide⟩
  · intro h; simp [scoreFile, h]
  · intro h1 h2; simp [scoreFile, h1, h2]
  · intro h1 h2 h3; simp [scoreFile, h1, h2, h3]
  · intro h1 h2 h3
    simp only [scoreFile, h1, h2, h3, Bool.false_eq_true, if_false]
    rw [score_fold_eq]
    omega
  · intro m hm
    have hm' : m ∈ (files.filterMap fun info =>
        if scoreFile (strToLower q) (splitWhitespace (strToLower q)) info > 0 then
          some (⟨info.path, info.name, none, none,
            scoreFile (strToLower q) (splitWhitespace (strToLower q)) info⟩ : FileMatch)
        else none) := by
      have h1 := List.take_subset 50 _ hm
      exact (List.Perm.mem_iff (List.perm_insertionSort _ _)).mp h1
    obtain ⟨info, _, hsome⟩ := List.mem_filterMap.mp hm'
    split at hsome
    · rename_i hpos
      cases hsome
      exact hpos
    · exact absurd hsome (by simp)

/-- Witness for C4 (amended): the exact tier at the full file name. -/
theorem c4_witness :
    scoreFile "foo.ts" ["foo.ts"] fooInfo = 100 :=
  (c4_search_scoring "foo.ts" ["foo.ts"] fooInfo [] "").1 (by decide)

/-- Claim C8: `open_workspace` returns the invalid-path error with the
state untouched exactly when the root does not exist or is not a
directory; in every other case it produces a different outcome. -/
theorem c8_open_workspace_invalid (pexists isDir : String → Bool)
    (idx : FileIndexState → String → Except String FileIndexState)
    (aws : GraphState → String → Except String GraphState)
    (st : AppState) (path : String) :
    open_workspace pexists isDir idx aws st path =
        (st, Except.error MainError.invalidPath) ↔
      (pexists path = false ∨ isDir path = false) := by
  unfold open_workspace
  cases hp : pexists path <;> cases hd : isDir path <;>
    simp only [hp, hd, Bool.not_true, Bool.not_false, Bool.true_or,
      Bool.or_true, Bool.or_false, Bool.false_or, if_true, if_false]
  · simp
  · simp
  · simp
  · rcases hidx : idx st.file_index path with e | fi
    · simp [Prod.ext_iff]
    · rcases haws : aws st.code_graph path with e | g
      · simp [Prod.ext_iff]
      · simp [Prod.ext_iff]

/-- The initial command state (`AppState::default`). -/
def emptyAppState : AppState := ⟨none, FileIndexState.empty, GraphState.empty⟩

/-- Witness for C8: a nonexistent root is rejected with the state intact. -/
theorem c8_witness :
    open_workspace (fun _ => false) (fun _ => false)
        (fun fi _ => Except.ok fi) (fun g _ => Except.ok g) emptyAppState "/nope" =
      (emptyAppState, Except.error MainError.invalidPath) :=
  (c8_open_workspace_invalid (fun _ => false) (fun _ => false)
      (fun fi _ => Except.ok fi) (fun g _ => Except.ok g) emptyAppState "/nope").mpr
    (Or.inl rfl)

end Mimiverse
